import Mathlib

/-!
Verification of the document-chunking, chapter-extraction and resumable
chunked-synthesis core of the kokoro-tts command-line tool
(src/backend/kokoro-tts.py).

Strings are modelled as `List Char`. Python's `str.strip`, `str.split`,
`str.split(sep)` and `' '.join` are embedded as `pyStrip`, `pyWords`,
`splitAll` and `joinSpace`. Audio samples are modelled as `List Int`
(the concrete float values never matter to any claim, only emptiness,
ordering and concatenation).
-/

/-- Python `str.isspace` for the ASCII whitespace characters that can occur
in the tool's inputs. -/
def isSpaceB (c : Char) : Bool :=
  c == ' ' || c == '\t' || c == '\n' || c == '\r' || c == '\x0b' || c == '\x0c'

/-- Separator class "whitespace or period", used to state token preservation
of the chunker (periods act as separators because `chunk_text` splits on
the literal `'.'`). -/
def isDotSpaceB (c : Char) : Bool :=
  isSpaceB c || c == '.'

/-- Python `text.replace('\n', ' ')` (kokoro-tts.py line 65). -/
def replaceNl (s : List Char) : List Char :=
  s.map (fun c => if c == '\n' then ' ' else c)

/-- Python `str.strip()`: drop leading and trailing whitespace. -/
def pyStrip (s : List Char) : List Char :=
  ((s.dropWhile isSpaceB).reverse.dropWhile isSpaceB).reverse

/-- Python `str.split(sep)` for a one-character separator: all parts,
empty parts included (`"".split(sep) == [""]`, `"a.".split('.') == ["a",""]`). -/
def splitAll (sep : Char → Bool) : List Char → List (List Char)
  | [] => [[]]
  | c :: s =>
    if sep c then [] :: splitAll sep s
    else
      match splitAll sep s with
      | [] => [[c]]
      | t :: ts => (c :: t) :: ts

/-- Maximal runs of non-separator characters (empty runs dropped).
`toks isSpaceB` is Python `str.split()` with no argument. -/
def toks (sep : Char → Bool) (s : List Char) : List (List Char) :=
  (splitAll sep s).filter (fun t => !t.isEmpty)

/-- Python `str.split()`. -/
def pyWords (s : List Char) : List (List Char) :=
  toks isSpaceB s

/-- Python `' '.join`. -/
def joinSpace : List (List Char) → List Char
  | [] => []
  | [w] => w
  | w :: ws => w ++ ' ' :: joinSpace ws

theorem splitAll_ne_nil (sep : Char → Bool) (s : List Char) : splitAll sep s ≠ [] := by
  cases s with
  | nil => simp [splitAll]
  | cons c s =>
    simp only [splitAll]
    by_cases h : sep c
    · simp [h]
    · simp only [h, if_neg, Bool.false_eq_true]
      cases hs : splitAll sep s <;> simp

theorem splitAll_cons_sep {sep : Char → Bool} {c : Char} (h : sep c = true) (s : List Char) :
    splitAll sep (c :: s) = [] :: splitAll sep s := by
  simp [splitAll, h]

theorem splitAll_eq_cons (sep : Char → Bool) (s : List Char) :
    ∃ t ts, splitAll sep s = t :: ts := by
  cases h : splitAll sep s with
  | nil => exact absurd h (splitAll_ne_nil sep s)
  | cons t ts => exact ⟨t, ts, rfl⟩

theorem splitAll_cons_not_sep {sep : Char → Bool} {c : Char} (h : ¬ sep c = true)
    {s t : List Char} {ts : List (List Char)} (hs : splitAll sep s = t :: ts) :
    splitAll sep (c :: s) = (c :: t) :: ts := by
  simp [splitAll, h, hs]

theorem splitAll_append_sep {sep : Char → Bool} {c : Char} (h : sep c = true)
    (a b : List Char) :
    splitAll sep (a ++ c :: b) = splitAll sep a ++ splitAll sep b := by
  induction a with
  | nil =>
    rw [List.nil_append, splitAll_cons_sep h]
    simp [splitAll]
  | cons d a ih =>
    by_cases hd : sep d
    · rw [List.cons_append, splitAll_cons_sep hd, ih, splitAll_cons_sep hd]
      simp
    · obtain ⟨t, ts, ha⟩ := splitAll_eq_cons sep a
      have hab : splitAll sep (a ++ c :: b) = t :: (ts ++ splitAll sep b) := by
        rw [ih, ha]; simp
      rw [List.cons_append, splitAll_cons_not_sep hd hab, splitAll_cons_not_sep hd ha]
      simp

theorem toks_nil (sep : Char → Bool) : toks sep [] = [] := by
  simp [toks, splitAll]

theorem toks_cons_sep {sep : Char → Bool} {c : Char} (h : sep c = true) (s : List Char) :
    toks sep (c :: s) = toks sep s := by
  simp [toks, splitAll_cons_sep h]

theorem toks_append_sep {sep : Char → Bool} {c : Char} (h : sep c = true)
    (a b : List Char) :
    toks sep (a ++ c :: b) = toks sep a ++ toks sep b := by
  simp [toks, splitAll_append_sep h]

theorem splitAll_no_sep {sep : Char → Bool} {s : List Char}
    (h : ∀ c ∈ s, ¬ sep c = true) : splitAll sep s = [s] := by
  induction s with
  | nil => simp [splitAll]
  | cons c s ih =>
    have hc : ¬ sep c = true := h c (by simp)
    simp only [splitAll, hc, if_false, Bool.false_eq_true]
    rw [ih (fun d hd => h d (by simp [hd]))]

theorem toks_no_sep {sep : Char → Bool} {s : List Char}
    (hne : s ≠ []) (h : ∀ c ∈ s, ¬ sep c = true) : toks sep s = [s] := by
  simp [toks, splitAll_no_sep h, hne]

theorem toks_all_sep {sep : Char → Bool} {s : List Char}
    (h : ∀ c ∈ s, sep c = true) : toks sep s = [] := by
  induction s with
  | nil => exact toks_nil sep
  | cons c s ih =>
    rw [toks_cons_sep (h c (by simp))]
    exact ih (fun d hd => h d (by simp [hd]))

theorem toks_append_left_sep {sep : Char → Bool} {a : List Char}
    (h : ∀ c ∈ a, sep c = true) (b : List Char) :
    toks sep (a ++ b) = toks sep b := by
  induction a with
  | nil => simp
  | cons c a ih =>
    rw [List.cons_append, toks_cons_sep (h c (by simp))]
    exact ih (fun d hd => h d (by simp [hd]))

theorem toks_append_right_sep {sep : Char → Bool} {b : List Char}
    (h : ∀ c ∈ b, sep c = true) (a : List Char) :
    toks sep (a ++ b) = toks sep a := by
  cases b with
  | nil => simp
  | cons c b =>
    rw [toks_append_sep (h c (by simp))]
    have hb : toks sep b = [] := toks_all_sep (fun d hd => h d (by simp [hd]))
    rw [hb, List.append_nil]

theorem mem_splitAll_no_sep {sep : Char → Bool} {s : List Char} :
    ∀ t ∈ splitAll sep s, ∀ c ∈ t, ¬ sep c = true := by
  induction s with
  | nil => simp [splitAll]
  | cons c s ih =>
    by_cases hc : sep c
    · rw [splitAll_cons_sep hc]
      intro t ht
      cases ht with
      | head => simp
      | tail _ h => exact ih t h
    · simp only [splitAll, hc, Bool.false_eq_true, if_false]
      cases hs : splitAll sep s with
      | nil => exact absurd hs (splitAll_ne_nil sep s)
      | cons t ts =>
        intro u hu
        cases hu with
        | head =>
          intro d hd
          cases hd with
          | head => exact hc
          | tail _ h => exact ih t (by rw [hs]; exact List.mem_cons_self _ _) d h
        | tail _ h => exact ih u (by rw [hs]; exact List.mem_cons_of_mem _ h)

theorem mem_toks_no_sep {sep : Char → Bool} {s : List Char} :
    ∀ t ∈ toks sep s, ∀ c ∈ t, ¬ sep c = true := by
  intro t ht
  exact mem_splitAll_no_sep t (List.mem_of_mem_filter ht)

theorem mem_toks_ne_nil {sep : Char → Bool} {s : List Char} :
    ∀ t ∈ toks sep s, t ≠ [] := by
  intro t ht
  have := List.of_mem_filter ht
  simpa using this

theorem toks_joinSpace {sep : Char → Bool} (hsp : sep ' ' = true) (l : List (List Char)) :
    toks sep (joinSpace l) = (l.map (toks sep)).flatten := by
  induction l with
  | nil => simp [joinSpace, toks_nil]
  | cons w ws ih =>
    cases ws with
    | nil => simp [joinSpace]
    | cons x ys =>
      show toks sep (w ++ ' ' :: joinSpace (x :: ys)) = _
      rw [toks_append_sep hsp, ih]
      simp

theorem mem_dropWhile {p : Char → Bool} {s : List Char} {c : Char}
    (h : c ∈ s.dropWhile p) : c ∈ s := by
  induction s with
  | nil => simp [List.dropWhile] at h
  | cons d s ih =>
    rw [List.dropWhile_cons] at h
    by_cases hd : p d
    · simp only [hd, if_true] at h
      exact List.mem_cons_of_mem _ (ih h)
    · simp only [hd, Bool.false_eq_true, if_false] at h
      exact h

theorem mem_pyStrip {s : List Char} {c : Char} (h : c ∈ pyStrip s) : c ∈ s := by
  unfold pyStrip at h
  rw [List.mem_reverse] at h
  have h2 := mem_dropWhile h
  rw [List.mem_reverse] at h2
  exact mem_dropWhile h2

theorem takeWhile_all {p : Char → Bool} {s : List Char} :
    ∀ c ∈ s.takeWhile p, p c = true := by
  induction s with
  | nil => simp [List.takeWhile]
  | cons d s ih =>
    rw [List.takeWhile_cons]
    by_cases hd : p d
    · simp only [hd, if_true]
      intro c hc
      cases hc with
      | head => exact hd
      | tail _ h => exact ih c h
    · simp [hd]

theorem toks_pyStrip {sep : Char → Bool} (hsub : ∀ c, isSpaceB c = true → sep c = true)
    (s : List Char) : toks sep (pyStrip s) = toks sep s := by
  have hsplit : s = s.takeWhile isSpaceB ++ s.dropWhile isSpaceB :=
    (List.takeWhile_append_dropWhile ..).symm
  set d := s.dropWhile isSpaceB with hd
  have h1 : toks sep s = toks sep d := by
    conv_lhs => rw [hsplit]
    exact toks_append_left_sep (fun c hc => hsub c (takeWhile_all c hc)) d
  have hdsplit : d.reverse = d.reverse.takeWhile isSpaceB ++ d.reverse.dropWhile isSpaceB :=
    (List.takeWhile_append_dropWhile ..).symm
  have hd2 : d = (d.reverse.dropWhile isSpaceB).reverse ++ (d.reverse.takeWhile isSpaceB).reverse := by
    conv_lhs => rw [← List.reverse_reverse d]
    rw [← List.reverse_append]
    congr 1
  have h2 : toks sep d = toks sep ((d.reverse.dropWhile isSpaceB).reverse) := by
    conv_lhs => rw [hd2]
    refine toks_append_right_sep ?_ _
    intro c hc
    rw [List.mem_reverse] at hc
    exact hsub c (takeWhile_all c hc)
  rw [h1, h2]
  rfl

/-- Python `'.'.join`, used to state that `split('.')` loses no characters. -/
def joinDots : List (List Char) → List Char
  | [] => []
  | [w] => w
  | w :: ws => w ++ '.' :: joinDots ws

/-- `str.split('.')` in kokoro-tts.py line 65. -/
def splitOnDot (s : List Char) : List (List Char) :=
  splitAll (fun c => c == '.') s

theorem joinDots_splitOnDot (s : List Char) : joinDots (splitOnDot s) = s := by
  induction s with
  | nil => simp [splitOnDot, splitAll, joinDots]
  | cons c s ih =>
    by_cases hc : c = '.'
    · subst hc
      unfold splitOnDot at *
      rw [splitAll_cons_sep (by simp)]
      obtain ⟨t, ts, hs⟩ := splitAll_eq_cons (fun c => c == '.') s
      rw [hs] at ih ⊢
      show ([] : List Char) ++ '.' :: joinDots (t :: ts) = _
      rw [ih]
      rfl
    · unfold splitOnDot at *
      obtain ⟨t, ts, hs⟩ := splitAll_eq_cons (fun c => c == '.') s
      rw [splitAll_cons_not_sep (by simp [hc]) hs]
      rw [hs] at ih
      cases ts with
      | nil => show c :: t = c :: s; rw [← ih]; rfl
      | cons u us =>
        show (c :: t) ++ '.' :: joinDots (u :: us) = c :: s
        rw [← ih]
        rfl

theorem toks_joinDots {sep : Char → Bool} (hd : sep '.' = true) (l : List (List Char)) :
    toks sep (joinDots l) = (l.map (toks sep)).flatten := by
  induction l with
  | nil => simp [joinDots, toks_nil]
  | cons w ws ih =>
    cases ws with
    | nil => simp [joinDots]
    | cons x ys =>
      show toks sep (w ++ '.' :: joinDots (x :: ys)) = _
      rw [toks_append_sep hd, ih]
      simp

/-- Splitting on periods and re-tokenising with periods as separators
loses nothing: the period-separated parts carry exactly the tokens. -/
theorem toks_splitOnDot (s : List Char) :
    ((splitOnDot s).map (toks isDotSpaceB)).flatten = toks isDotSpaceB s := by
  rw [← toks_joinDots (by simp [isDotSpaceB, isSpaceB]) (splitOnDot s), joinDots_splitOnDot]

/-- A character map that sends separators to separators and fixes every
non-separator character does not change the split at all. -/
theorem splitAll_map_sep_fix {sep : Char → Bool} {f : Char → Char}
    (hsep : ∀ c, sep c = true → sep (f c) = true)
    (hfix : ∀ c, ¬ sep c = true → f c = c) (s : List Char) :
    splitAll sep (s.map f) = splitAll sep s := by
  induction s with
  | nil => rfl
  | cons c s ih =>
    by_cases hc : sep c
    · rw [List.map_cons, splitAll_cons_sep (hsep c hc), splitAll_cons_sep hc, ih]
    · obtain ⟨t, ts, hs⟩ := splitAll_eq_cons sep s
      have hs2 : splitAll sep (s.map f) = t :: ts := by rw [ih, hs]
      rw [List.map_cons, hfix c hc, splitAll_cons_not_sep hc hs2, splitAll_cons_not_sep hc hs]

theorem toks_replaceNl {sep : Char → Bool} (hn : sep '\n' = true) (hs : sep ' ' = true)
    (s : List Char) : toks sep (replaceNl s) = toks sep s := by
  unfold toks replaceNl
  rw [splitAll_map_sep_fix]
  · intro c hc
    by_cases h : c = '\n'
    · simp [h, hs]
    · simpa [h] using hc
  · intro c hc
    by_cases h : c = '\n'
    · exact absurd (h ▸ hn) hc
    · simp [h]

/-!
### The Chunker (`chunk_text`, kokoro-tts.py lines 63-111)

`chunkPackAux` is the inner word-packing loop for a sentence longer than
`chunk_size` (lines 80-96): greedy packing of whitespace-split words into
pieces, tracking `current_piece_size` as the sum of `len(word) + 1`; each
flushed piece is `' '.join(piece).strip() + '.'`.

`chunkLoop` is the outer sentence loop (lines 71-109).  Note the faithful
quirk: the pieces of an oversized sentence are appended to the result
*immediately*, while previously accumulated short sentences stay in the
pending buffer and are flushed later, after them.
-/

def chunkPackAux (chunk_size : Nat) : List (List Char) → List (List Char) → Nat → List (List Char)
  | [], piece, _ =>
    if piece.isEmpty then [] else [pyStrip (joinSpace piece) ++ ['.']]
  | w :: ws, piece, psize =>
    if psize + (w.length + 1) > chunk_size then
      (if piece.isEmpty then [] else [pyStrip (joinSpace piece) ++ ['.']]) ++
        chunkPackAux chunk_size ws [w] (w.length + 1)
    else
      chunkPackAux chunk_size ws (piece ++ [w]) (psize + (w.length + 1))

/-- The long-sentence word splitter of the Chunker (step 3 of §4.1). -/
def chunkWordSplit (sentence : List Char) (chunk_size : Nat) : List (List Char) :=
  chunkPackAux chunk_size (pyWords sentence) [] 0

def chunkLoop (chunk_size : Nat) : List (List Char) → List (List Char) → Nat → List (List Char)
  | [], current, _ =>
    if current.isEmpty then [] else [joinSpace current]
  | s :: rest, current, csize =>
    if (pyStrip s).isEmpty then chunkLoop chunk_size rest current csize
    else
      let sent := pyStrip s ++ ['.']
      if sent.length > chunk_size then
        chunkWordSplit sent chunk_size ++ chunkLoop chunk_size rest current csize
      else
        if csize + sent.length > chunk_size ∧ current ≠ [] then
          joinSpace current :: chunkLoop chunk_size rest [sent] sent.length
        else
          chunkLoop chunk_size rest (current ++ [sent]) (csize + sent.length)

/-- `chunk_text(text, initial_chunk_size)` (kokoro-tts.py lines 63-111). -/
def chunk_text (text : List Char) (initial_chunk_size : Nat) : List (List Char) :=
  chunkLoop initial_chunk_size (splitOnDot (replaceNl text)) [] 0

/-!
### The synthesis driver's re-splitting loop
(`process_chunk_sequential`, kokoro-tts.py lines 708-726)

Identical greedy packing, but each flushed piece is
`' '.join(piece).strip()` with no trailing period.
-/

def driverPackAux (new_size : Nat) : List (List Char) → List (List Char) → Nat → List (List Char)
  | [], piece, _ =>
    if piece.isEmpty then [] else [pyStrip (joinSpace piece)]
  | w :: ws, piece, psize =>
    if psize + (w.length + 1) > new_size then
      (if piece.isEmpty then [] else [pyStrip (joinSpace piece)]) ++
        driverPackAux new_size ws [w] (w.length + 1)
    else
      driverPackAux new_size ws (piece ++ [w]) (psize + (w.length + 1))

/-- The re-split of an oversized chunk performed by the synthesis driver. -/
def resplitPieces (chunk : List Char) (new_size : Nat) : List (List Char) :=
  driverPackAux new_size (pyWords chunk) [] 0

example : chunk_text "abcd. efgh.".toList 10 = ["abcd. efgh.".toList] := by decide
example : chunk_text "a.b".toList 1000 = ["a. b.".toList] := by decide
example : chunk_text "aa. wwwwwwwwwwwwwwwwwwww. bb.".toList 10 =
    ["wwwwwwwwwwwwwwwwwwww..".toList, "aa. bb.".toList] := by decide
example : resplitPieces "aaaaaaaaaa".toList 6 = ["aaaaaaaaaa".toList] := by decide
example : chunkWordSplit "ab".toList 10 = ["ab.".toList] := by decide
example : resplitPieces "ab".toList 10 = ["ab".toList] := by decide

/-!
### Auxiliary facts about strip, join and character counts
-/

theorem dropWhile_no_sat {p : Char → Bool} {s : List Char}
    (h : ∀ c ∈ s, ¬ p c = true) : s.dropWhile p = s := by
  cases s with
  | nil => rfl
  | cons c s =>
    rw [List.dropWhile_cons]
    simp [h c (by simp)]

theorem pyStrip_no_space {s : List Char} (h : ∀ c ∈ s, ¬ isSpaceB c = true) :
    pyStrip s = s := by
  unfold pyStrip
  rw [dropWhile_no_sat h, dropWhile_no_sat (by intro c hc; rw [List.mem_reverse] at hc; exact h c hc),
    List.reverse_reverse]

theorem dropWhile_length_le (p : Char → Bool) (s : List Char) :
    (s.dropWhile p).length ≤ s.length := by
  induction s with
  | nil => simp
  | cons c s ih =>
    rw [List.dropWhile_cons]
    by_cases hc : p c
    · simp only [hc, if_true]
      exact Nat.le_succ_of_le ih
    · simp [hc]

theorem pyStrip_length_le (s : List Char) : (pyStrip s).length ≤ s.length := by
  unfold pyStrip
  calc ((s.dropWhile isSpaceB).reverse.dropWhile isSpaceB).reverse.length
      = ((s.dropWhile isSpaceB).reverse.dropWhile isSpaceB).length := by rw [List.length_reverse]
    _ ≤ (s.dropWhile isSpaceB).reverse.length := dropWhile_length_le ..
    _ = (s.dropWhile isSpaceB).length := by rw [List.length_reverse]
    _ ≤ s.length := dropWhile_length_le ..

/-- The Python running size `sum(len(w) + 1 for w in piece)` used by both
word-packing loops. -/
def sumTrack (ws : List (List Char)) : Nat :=
  (ws.map (fun w => w.length + 1)).sum

theorem sumTrack_nil : sumTrack [] = 0 := rfl

theorem sumTrack_append (a b : List (List Char)) :
    sumTrack (a ++ b) = sumTrack a + sumTrack b := by
  unfold sumTrack
  rw [List.map_append, List.sum_append]

theorem joinSpace_length {l : List (List Char)} (h : l ≠ []) :
    (joinSpace l).length + 1 = sumTrack l := by
  induction l with
  | nil => exact absurd rfl h
  | cons w ws ih =>
    cases ws with
    | nil => simp [joinSpace, sumTrack]
    | cons x ys =>
      show (w ++ ' ' :: joinSpace (x :: ys)).length + 1 = _
      rw [List.length_append]
      have := ih (by simp)
      show w.length + (joinSpace (x :: ys)).length.succ + 1 = sumTrack (w :: x :: ys)
      unfold sumTrack at this ⊢
      simp only [List.map_cons, List.sum_cons] at this ⊢
      omega

/-- Number of period characters in a string. -/
def countDots (s : List Char) : Nat := s.count '.'

theorem countDots_append (a b : List Char) : countDots (a ++ b) = countDots a + countDots b := by
  unfold countDots
  rw [List.count_append]

theorem countDots_joinSpace (l : List (List Char)) :
    countDots (joinSpace l) = (l.map countDots).sum := by
  induction l with
  | nil => rfl
  | cons w ws ih =>
    cases ws with
    | nil => simp [joinSpace]
    | cons x ys =>
      show countDots (w ++ ' ' :: joinSpace (x :: ys)) = _
      rw [countDots_append]
      show countDots w + List.count '.' (' ' :: joinSpace (x :: ys)) = _
      rw [List.count_cons]
      simp only [List.map_cons, List.sum_cons]
      rw [show List.count '.' (joinSpace (x :: ys)) = countDots (joinSpace (x :: ys)) from rfl, ih]
      simp

theorem countDots_no_dot {s : List Char} (h : ('.' : Char) ∉ s) : countDots s = 0 := by
  unfold countDots
  exact List.count_eq_zero.mpr h

theorem notMem_pyStrip {s : List Char} {c : Char} (h : c ∉ s) : c ∉ pyStrip s :=
  fun hc => h (mem_pyStrip hc)

/-!
### C4: chunk sizes

What is actually true: a chunk is either whitespace-free (one word, possibly
oversized), or its length exceeds `target_size` by strictly less than the
number of periods it contains — the joining spaces between packed sentences
are not counted by the accumulator `current_size` in the source.
-/

theorem flush_piece_bound (n : Nat) {piece : List (List Char)}
    (hp : ∀ w ∈ piece, w ≠ [] ∧ ∀ c ∈ w, ¬ isSpaceB c = true)
    (hne : piece ≠ [])
    (hsz : 2 ≤ piece.length → sumTrack piece ≤ n) :
    (pyStrip (joinSpace piece) ++ ['.']).length + 1 ≤
        n + countDots (pyStrip (joinSpace piece) ++ ['.']) ∨
      ∀ c ∈ pyStrip (joinSpace piece) ++ ['.'], ¬ isSpaceB c = true := by
  cases piece with
  | nil => exact absurd rfl hne
  | cons w ws =>
    cases ws with
    | nil =>
      right
      intro c hc
      have hw := hp w (by simp)
      rw [show joinSpace [w] = w from rfl, pyStrip_no_space hw.2] at hc
      rcases List.mem_append.mp hc with h | h
      · exact hw.2 c h
      · simp only [List.mem_singleton] at h
        subst h
        decide
    | cons x ys =>
      left
      have h2 : 2 ≤ (w :: x :: ys).length := by simp
      have hsum := hsz h2
      have hjl := joinSpace_length (l := w :: x :: ys) (by simp)
      have hstrip := pyStrip_length_le (joinSpace (w :: x :: ys))
      have hdots : 1 ≤ countDots (pyStrip (joinSpace (w :: x :: ys)) ++ ['.']) := by
        rw [countDots_append]
        have : countDots ['.'] = 1 := by decide
        omega
      rw [List.length_append]
      simp only [List.length_singleton]
      omega

theorem chunkPackAux_bound (n : Nat) :
    ∀ (ws piece : List (List Char)) (psize : Nat),
      (∀ w ∈ ws, w ≠ [] ∧ ∀ c ∈ w, ¬ isSpaceB c = true) →
      (∀ w ∈ piece, w ≠ [] ∧ ∀ c ∈ w, ¬ isSpaceB c = true) →
      psize = sumTrack piece →
      (2 ≤ piece.length → psize ≤ n) →
      ∀ r ∈ chunkPackAux n ws piece psize,
        r.length + 1 ≤ n + countDots r ∨ ∀ c ∈ r, ¬ isSpaceB c = true := by
  intro ws
  induction ws with
  | nil =>
    intro piece psize hws hp hsum hsz r hr
    unfold chunkPackAux at hr
    by_cases hpe : piece.isEmpty
    · simp [hpe] at hr
    · rw [if_neg (by simp [hpe])] at hr
      simp only [List.mem_singleton] at hr
      subst hr
      exact flush_piece_bound n hp (by simpa using hpe) (fun h2 => hsum ▸ hsz h2)
  | cons w ws ih =>
    intro piece psize hws hp hsum hsz r hr
    unfold chunkPackAux at hr
    by_cases hover : psize + (w.length + 1) > n
    · rw [if_pos hover] at hr
      rcases List.mem_append.mp hr with h | h
      · by_cases hpe : piece.isEmpty
        · simp [hpe] at h
        · rw [if_neg (by simp [hpe])] at h
          simp only [List.mem_singleton] at h
          subst h
          exact flush_piece_bound n hp (by simpa using hpe) (fun h2 => hsum ▸ hsz h2)
      · refine ih [w] (w.length + 1) (fun u hu => hws u (List.mem_cons_of_mem _ hu))
          (fun u hu => ?_) (by simp [sumTrack]) (by simp) r h
        simp only [List.mem_singleton] at hu
        subst hu
        exact hws _ (by simp)
    · rw [if_neg hover] at hr
      refine ih (piece ++ [w]) (psize + (w.length + 1))
        (fun u hu => hws u (List.mem_cons_of_mem _ hu))
        (fun u hu => ?_) (by rw [sumTrack_append, hsum]; simp [sumTrack]) (fun _ => by omega) r hr
      rcases List.mem_append.mp hu with h | h
      · exact hp u h
      · simp only [List.mem_singleton] at h
        subst h
        exact hws _ (by simp)

theorem sumTrack_eq (l : List (List Char)) :
    sumTrack l = (l.map List.length).sum + l.length := by
  induction l with
  | nil => rfl
  | cons s ss ih =>
    unfold sumTrack at ih ⊢
    simp only [List.map_cons, List.sum_cons, List.length_cons]
    omega

/-- The chunk flushed from the sentence buffer satisfies the corrected bound. -/
theorem flush_buffer_bound (n : Nat) {current : List (List Char)}
    (hcur : ∀ s ∈ current, countDots s = 1)
    (hcne : current ≠ [])
    (hle : (current.map List.length).sum ≤ n) :
    (joinSpace current).length + 1 ≤ n + countDots (joinSpace current) := by
  have hjl := joinSpace_length hcne
  have hdots : countDots (joinSpace current) = current.length := by
    rw [countDots_joinSpace]
    have : current.map countDots = current.map (fun _ => 1) := by
      apply List.map_congr_left
      intro s hs
      exact hcur s hs
    rw [this]
    simp [List.map_const]
  have hst := sumTrack_eq current
  rw [hdots]
  omega

theorem chunkLoop_bound (n : Nat) :
    ∀ (parts current : List (List Char)) (csize : Nat),
      (∀ p ∈ parts, ('.' : Char) ∉ p) →
      (∀ s ∈ current, countDots s = 1) →
      csize = (current.map List.length).sum →
      csize ≤ n →
      ∀ c ∈ chunkLoop n parts current csize,
        c.length + 1 ≤ n + countDots c ∨ ∀ ch ∈ c, ¬ isSpaceB ch = true := by
  intro parts
  induction parts with
  | nil =>
    intro current csize hparts hcur hsz hle c hc
    unfold chunkLoop at hc
    by_cases hce : current.isEmpty
    · simp [hce] at hc
    · rw [if_neg (by simp [hce])] at hc
      simp only [List.mem_singleton] at hc
      subst hc
      left
      exact flush_buffer_bound n hcur (by simpa using hce) (hsz ▸ hle)
  | cons p rest ih =>
    intro current csize hparts hcur hsz hle c hc
    unfold chunkLoop at hc
    by_cases hskip : (pyStrip p).isEmpty
    · rw [if_pos hskip] at hc
      exact ih current csize (fun q hq => hparts q (List.mem_cons_of_mem _ hq)) hcur hsz hle c hc
    · rw [if_neg hskip] at hc
      simp only at hc
      set sent : List Char := pyStrip p ++ ['.'] with hsent
      have hsentdots : countDots sent = 1 := by
        rw [hsent, countDots_append,
          countDots_no_dot (notMem_pyStrip (hparts p (by simp)))]
        decide
      by_cases hlong : sent.length > n
      · rw [if_pos hlong] at hc
        rcases List.mem_append.mp hc with h | h
        · exact chunkPackAux_bound n (pyWords sent) [] 0
            (fun w hw => ⟨mem_toks_ne_nil w hw, mem_toks_no_sep w hw⟩)
            (by simp) (by simp [sumTrack]) (by simp) c h
        · exact ih current csize (fun q hq => hparts q (List.mem_cons_of_mem _ hq)) hcur hsz hle c h
      · rw [if_neg hlong] at hc
        by_cases hflush : csize + sent.length > n ∧ current ≠ []
        · rw [if_pos hflush] at hc
          rcases List.mem_cons.mp hc with h | h
          · subst h
            left
            exact flush_buffer_bound n hcur hflush.2 (hsz ▸ hle)
          · refine ih [sent] sent.length (fun q hq => hparts q (List.mem_cons_of_mem _ hq))
              (fun s hs => ?_) (by simp) (by omega) c h
            simp only [List.mem_singleton] at hs
            subst hs
            exact hsentdots
        · rw [if_neg hflush] at hc
          have hnewle : csize + sent.length ≤ n := by
            rcases Decidable.not_and_iff_or_not.mp hflush with h | h
            · omega
            · have : current = [] := Decidable.not_not.mp h
              subst this
              simp at hsz
              omega
          refine ih (current ++ [sent]) (csize + sent.length)
            (fun q hq => hparts q (List.mem_cons_of_mem _ hq))
            (fun s hs => ?_) (by rw [hsz]; simp) hnewle c hc
          rcases List.mem_append.mp hs with h | h
          · exact hcur s h
          · simp only [List.mem_singleton] at h
            subst h
            exact hsentdots

/-- C4 (amended): every chunk either contains no whitespace (it is a single
packed word, which alone may exceed the bound) or exceeds `target_size` by
strictly less than its period count. -/
theorem chunk_text_size_bound (text : List Char) (n : Nat) :
    ∀ c ∈ chunk_text text n,
      c.length + 1 ≤ n + countDots c ∨ ∀ ch ∈ c, ¬ isSpaceB ch = true := by
  intro c hc
  refine chunkLoop_bound n (splitOnDot (replaceNl text)) [] 0 ?_ (by simp) (by simp) (by simp) c hc
  intro p hp hdot
  exact mem_splitAll_no_sep p hp '.' hdot (by simp)

/-!
### C5: token preservation

When no sentence overflows `target_size` the chunker preserves, in order,
the sequence of maximal period-and-whitespace-free tokens.  (Without that
hypothesis the pieces of an oversized sentence are emitted ahead of the
pending sentence buffer, and an interior period splits a word in two, which
is what the counterexample exhibits.)
-/

theorem toks_sent_eq_part (p : List Char) :
    toks isDotSpaceB (pyStrip p ++ ['.']) = toks isDotSpaceB p := by
  rw [toks_append_right_sep (by intro c hc; simp only [List.mem_singleton] at hc; subst hc; decide)]
  exact toks_pyStrip (fun c h => by simp [isDotSpaceB, h]) p

theorem chunkLoop_tok (n : Nat) :
    ∀ (parts current : List (List Char)) (csize : Nat),
      (∀ p ∈ parts, (pyStrip p).length + 1 ≤ n) →
      ((chunkLoop n parts current csize).map (toks isDotSpaceB)).flatten =
        (current.map (toks isDotSpaceB)).flatten ++ (parts.map (toks isDotSpaceB)).flatten := by
  intro parts
  induction parts with
  | nil =>
    intro current csize hfit
    unfold chunkLoop
    by_cases hce : current.isEmpty
    · have : current = [] := by simpa using hce
      subst this
      simp
    · rw [if_neg (by simp [hce])]
      simp only [List.map_cons, List.map_nil, List.flatten_cons, List.flatten_nil,
        List.append_nil]
      rw [toks_joinSpace (by decide)]
  | cons p rest ih =>
    intro current csize hfit
    unfold chunkLoop
    by_cases hskip : (pyStrip p).isEmpty
    · rw [if_pos hskip]
      rw [ih current csize (fun q hq => hfit q (List.mem_cons_of_mem _ hq))]
      have hp0 : toks isDotSpaceB p = [] := by
        rw [← toks_pyStrip (fun c h => by simp [isDotSpaceB, h]) p]
        have : pyStrip p = [] := by simpa using hskip
        rw [this, toks_nil]
      simp [hp0]
    · rw [if_neg hskip]
      simp only
      have hslen : (pyStrip p ++ ['.']).length = (pyStrip p).length + 1 := by
        rw [List.length_append]; rfl
      have hnotlong : ¬ (pyStrip p ++ ['.']).length > n := by
        rw [hslen]
        exact Nat.not_lt.mpr (hfit p (by simp))
      rw [if_neg hnotlong]
      by_cases hflush : csize + (pyStrip p ++ ['.']).length > n ∧ current ≠ []
      · rw [if_pos hflush]
        simp only [List.map_cons, List.flatten_cons]
        rw [ih [pyStrip p ++ ['.']] (pyStrip p ++ ['.']).length
          (fun q hq => hfit q (List.mem_cons_of_mem _ hq))]
        rw [toks_joinSpace (by decide)]
        simp [toks_sent_eq_part p, List.append_assoc]
      · rw [if_neg hflush]
        rw [ih (current ++ [pyStrip p ++ ['.']]) (csize + (pyStrip p ++ ['.']).length)
          (fun q hq => hfit q (List.mem_cons_of_mem _ hq))]
        simp [toks_sent_eq_part p, List.append_assoc]

/-- C5 (amended): provided every period-delimited sentence fits within
`target_size`, joining all chunks reproduces the original text's sequence of
period-and-whitespace-delimited tokens exactly — no tokens dropped, none
duplicated, order preserved. -/
theorem chunk_text_token_preservation (text : List Char) (n : Nat)
    (hfit : ∀ p ∈ splitOnDot (replaceNl text), (pyStrip p).length + 1 ≤ n) :
    toks isDotSpaceB (joinSpace (chunk_text text n)) = toks isDotSpaceB text := by
  rw [toks_joinSpace (by decide)]
  unfold chunk_text
  rw [chunkLoop_tok n (splitOnDot (replaceNl text)) [] 0 hfit]
  rw [List.map_nil, List.flatten_nil, List.nil_append]
  rw [toks_splitOnDot]
  exact @toks_replaceNl isDotSpaceB (by decide) (by decide) text

/-- Witness instance for `chunk_text_token_preservation`. -/
theorem chunk_text_token_preservation_witness :
    toks isDotSpaceB (joinSpace (chunk_text "ab. cd".toList 1000)) =
      toks isDotSpaceB "ab. cd".toList :=
  chunk_text_token_preservation "ab. cd".toList 1000 (by decide)

/-- Python `w.rstrip('.')`: the charitable reading of "stripping the
synthetic trailing periods" from a reconstructed word. -/
def dropTrailingDots (w : List Char) : List Char :=
  (w.reverse.dropWhile (fun c => c == '.')).reverse

/-- The word sequence of a text, with trailing periods removed from each word
and words consisting only of periods dropped: the comparison key under which
the spec's reconstruction claim is stated. -/
def wordSeqKey (s : List Char) : List (List Char) :=
  ((pyWords s).map dropTrailingDots).filter (fun w => !w.isEmpty)

/-- C5 counterexample: on input `"a.b"` the single word `a.b` comes back as
the two words `a` and `b`, so the reconstructed word sequence differs from
the original one. -/
theorem chunk_text_word_seq_cex :
    wordSeqKey (joinSpace (chunk_text "a.b".toList 1000)) ≠ wordSeqKey "a.b".toList := by
  decide

/-!
### C9: the two word-packing loops
-/

theorem chunkPackAux_eq_driverPackAux (n : Nat) :
    ∀ (ws piece : List (List Char)) (psize : Nat),
      chunkPackAux n ws piece psize =
        (driverPackAux n ws piece psize).map (fun p => p ++ ['.']) := by
  intro ws
  induction ws with
  | nil =>
    intro piece psize
    unfold chunkPackAux driverPackAux
    by_cases hpe : piece.isEmpty <;> simp [hpe]
  | cons w ws ih =>
    intro piece psize
    unfold chunkPackAux driverPackAux
    by_cases hover : psize + (w.length + 1) > n
    · rw [if_pos hover, if_pos hover, List.map_append, ← ih]
      by_cases hpe : piece.isEmpty <;> simp [hpe]
    · rw [if_neg hover, if_neg hover, ← ih]

/-- C9 (amended): for equal input text and equal target size the Chunker's
long-sentence word splitter and the synthesis driver's re-split produce the
identical word grouping; the pieces differ only in that the Chunker appends
a trailing period to each piece and the driver does not. -/
theorem chunkWordSplit_eq_resplit (s : List Char) (n : Nat) :
    chunkWordSplit s n = (resplitPieces s n).map (fun p => p ++ ['.']) :=
  chunkPackAux_eq_driverPackAux n (pyWords s) [] 0

/-- C9 counterexample: the two splitters do not produce identical pieces —
already on the word `ab` with target 10 the Chunker's piece carries a
trailing period and the driver's does not. -/
theorem chunkWordSplit_ne_resplit_cex :
    chunkWordSplit "ab".toList 10 ≠ resplitPieces "ab".toList 10 := by
  decide

/-- C4 counterexample: with `target_size = 10` the input `"abcd. efgh."`
produces the single chunk `"abcd. efgh."` of length 11 > 10, and that chunk
contains whitespace — it is not a single oversized word, so the claimed
bound `len(chunk) <= target_size` fails outside the claimed exception. -/
theorem chunk_text_size_cex :
    "abcd. efgh.".toList ∈ chunk_text "abcd. efgh.".toList 10 ∧
      10 < ("abcd. efgh.".toList).length ∧
      ("abcd. efgh.".toList).any isSpaceB = true := by
  decide

/-- Witness instance for `chunk_text_size_bound`. -/
theorem chunk_text_size_bound_witness :
    "hello world.".toList.length + 1 ≤ 100 + countDots "hello world.".toList ∨
      ∀ ch ∈ "hello world.".toList, ¬ isSpaceB ch = true :=
  chunk_text_size_bound "hello world.".toList 100 "hello world.".toList (by decide)

/-!
### The synthesis driver (`process_chunk_sequential`, kokoro-tts.py 676-779)

The backend call `kokoro.create` is the injected black box.  The source
distinguishes the "chunk too long" failure by searching the error text for
`"index 510 is out of bounds"`; the embedding represents the three possible
outcomes of a backend call as a tagged result.

`process_chunk_sequential` recurses with no depth bound; the embedding uses
explicit fuel, with fuel exhaustion returning `none`, so that genuine
non-termination of the source appears as `none` for every fuel value.  The
second component of the result is the trace of backend invocations, in call
order.
-/

inductive SynthRes where
  | ok : List Int → Nat → SynthRes
  | tooLong : SynthRes
  | err : SynthRes
deriving DecidableEq

/-- The per-piece loop of the retry path (lines 737-751): accumulate the
samples of successful pieces, remember the rate of the last success, omit
failed pieces; the call trace is the concatenation of the pieces' traces. -/
def processPiecesF (f : List Char → Option (List Int × Nat) × List (List Char)) :
    List (List Char) → (List Int × Option Nat) × List (List Char)
  | [] => (([], none), [])
  | p :: ps =>
    let r := f p
    let rest := processPiecesF f ps
    match r.1 with
    | some (s, sr) =>
      ((s ++ rest.1.1, match rest.1.2 with | some x => some x | none => some sr), r.2 ++ rest.2)
    | none => ((rest.1.1, rest.1.2), r.2 ++ rest.2)

def process_chunk_sequential (synth : List Char → SynthRes) :
    Nat → List Char → Option (List Int × Nat) × List (List Char)
  | 0, _ => (none, [])
  | fuel + 1, chunk =>
    match synth chunk with
    | .ok s r => (some (s, r), [chunk])
    | .err => (none, [chunk])
    | .tooLong =>
      let pieces := resplitPieces chunk (chunk.length * 6 / 10)
      let sub := processPiecesF (process_chunk_sequential synth fuel) pieces
      if sub.1.1.isEmpty then (none, chunk :: sub.2)
      else (some (sub.1.1, sub.1.2.getD 0), chunk :: sub.2)

/-!
### Properties of the driver's re-split

`packGroupsAux` is proof machinery only: the grouping of words that
`driverPackAux` renders with `' '.join(...).strip()`.
-/

def packGroupsAux (size : Nat) : List (List Char) → List (List Char) → Nat → List (List (List Char))
  | [], piece, _ => if piece.isEmpty then [] else [piece]
  | w :: ws, piece, psize =>
    if psize + (w.length + 1) > size then
      (if piece.isEmpty then [] else [piece]) ++ packGroupsAux size ws [w] (w.length + 1)
    else
      packGroupsAux size ws (piece ++ [w]) (psize + (w.length + 1))

theorem driverPackAux_eq_groups (size : Nat) :
    ∀ (ws piece : List (List Char)) (psize : Nat),
      driverPackAux size ws piece psize =
        (packGroupsAux size ws piece psize).map (fun g => pyStrip (joinSpace g)) := by
  intro ws
  induction ws with
  | nil =>
    intro piece psize
    unfold driverPackAux packGroupsAux
    by_cases hpe : piece.isEmpty <;> simp [hpe]
  | cons w ws ih =>
    intro piece psize
    unfold driverPackAux packGroupsAux
    by_cases hover : psize + (w.length + 1) > size
    · rw [if_pos hover, if_pos hover, List.map_append, ← ih]
      by_cases hpe : piece.isEmpty <;> simp [hpe]
    · rw [if_neg hover, if_neg hover, ← ih]

theorem packGroupsAux_flatten (size : Nat) :
    ∀ (ws piece : List (List Char)) (psize : Nat),
      (packGroupsAux size ws piece psize).flatten = piece ++ ws := by
  intro ws
  induction ws with
  | nil =>
    intro piece psize
    unfold packGroupsAux
    by_cases hpe : piece.isEmpty
    · have : piece = [] := by simpa using hpe
      simp [this, hpe]
    · simp [hpe]
  | cons w ws ih =>
    intro piece psize
    unfold packGroupsAux
    by_cases hover : psize + (w.length + 1) > size
    · rw [if_pos hover]
      by_cases hpe : piece.isEmpty
      · have : piece = [] := by simpa using hpe
        simp [this, hpe, ih]
      · rw [if_neg (by simp [hpe])]
        simp [ih]
    · rw [if_neg hover, ih]
      simp

theorem packGroupsAux_ne_nil (size : Nat) :
    ∀ (ws piece : List (List Char)) (psize : Nat),
      ∀ g ∈ packGroupsAux size ws piece psize, g ≠ [] := by
  intro ws
  induction ws with
  | nil =>
    intro piece psize g hg
    unfold packGroupsAux at hg
    by_cases hpe : piece.isEmpty
    · simp [hpe] at hg
    · rw [if_neg (by simp [hpe])] at hg
      simp only [List.mem_singleton] at hg
      subst hg
      simpa using hpe
  | cons w ws ih =>
    intro piece psize g hg
    unfold packGroupsAux at hg
    by_cases hover : psize + (w.length + 1) > size
    · rw [if_pos hover] at hg
      rcases List.mem_append.mp hg with h | h
      · by_cases hpe : piece.isEmpty
        · simp [hpe] at h
        · rw [if_neg (by simp [hpe])] at h
          simp only [List.mem_singleton] at h
          subst h
          simpa using hpe
      · exact ih [w] (w.length + 1) g h
    · rw [if_neg hover] at hg
      exact ih (piece ++ [w]) (psize + (w.length + 1)) g hg

theorem packGroupsAux_size (size : Nat) :
    ∀ (ws piece : List (List Char)) (psize : Nat),
      psize = sumTrack piece →
      (2 ≤ piece.length → psize ≤ size) →
      ∀ g ∈ packGroupsAux size ws piece psize,
        g.length = 1 ∨ sumTrack g ≤ size := by
  intro ws
  induction ws with
  | nil =>
    intro piece psize hsum hsz g hg
    unfold packGroupsAux at hg
    by_cases hpe : piece.isEmpty
    · simp [hpe] at hg
    · rw [if_neg (by simp [hpe])] at hg
      simp only [List.mem_singleton] at hg
      subst hg
      rcases Nat.lt_or_ge g.length 2 with h2 | h2
      · left
        have : g ≠ [] := by simpa using hpe
        have : 1 ≤ g.length := List.length_pos.mpr this
        omega
      · right
        exact hsum ▸ hsz h2
  | cons w ws ih =>
    intro piece psize hsum hsz g hg
    unfold packGroupsAux at hg
    by_cases hover : psize + (w.length + 1) > size
    · rw [if_pos hover] at hg
      rcases List.mem_append.mp hg with h | h
      · by_cases hpe : piece.isEmpty
        · simp [hpe] at h
        · rw [if_neg (by simp [hpe])] at h
          simp only [List.mem_singleton] at h
          subst h
          rcases Nat.lt_or_ge g.length 2 with h2 | h2
          · left
            have : g ≠ [] := by simpa using hpe
            have : 1 ≤ g.length := List.length_pos.mpr this
            omega
          · right
            exact hsum ▸ hsz h2
      · exact ih [w] (w.length + 1) (by simp [sumTrack]) (by simp) g h
    · rw [if_neg hover] at hg
      exact ih (piece ++ [w]) (psize + (w.length + 1))
        (by rw [sumTrack_append, hsum]; simp [sumTrack]) (fun _ => by omega) g hg

theorem pyWords_word {w : List Char} (hne : w ≠ [])
    (hns : ∀ c ∈ w, ¬ isSpaceB c = true) : pyWords w = [w] :=
  toks_no_sep hne hns

theorem flatten_map_singleton (l : List (List Char)) :
    (l.map (fun w => [w])).flatten = l := by
  induction l with
  | nil => rfl
  | cons w l ih => simp [ih]

theorem pyWords_joinSpace {g : List (List Char)}
    (h : ∀ w ∈ g, w ≠ [] ∧ ∀ c ∈ w, ¬ isSpaceB c = true) :
    pyWords (joinSpace g) = g := by
  unfold pyWords
  rw [toks_joinSpace (by decide)]
  have hmap : g.map (toks isSpaceB) = g.map (fun w => [w]) := by
    apply List.map_congr_left
    intro w hw
    exact pyWords_word (h w hw).1 (h w hw).2
  rw [hmap, flatten_map_singleton]

theorem pyWords_pyStrip (s : List Char) : pyWords (pyStrip s) = pyWords s :=
  toks_pyStrip (fun _ h => h) s

/-- After a "too long" failure on a chunk whose words all fit in `N`
characters, every re-split piece again has nonempty words all fitting in
`N`, and is strictly shorter than the chunk. -/
theorem resplitPieces_spec {chunk : List Char} {N : Nat}
    (hw : pyWords chunk ≠ [])
    (hwlen : ∀ w ∈ pyWords chunk, w.length ≤ N)
    (hN : N < chunk.length) :
    resplitPieces chunk (chunk.length * 6 / 10) ≠ [] ∧
      ∀ p ∈ resplitPieces chunk (chunk.length * 6 / 10),
        pyWords p ≠ [] ∧ (∀ w ∈ pyWords p, w.length ≤ N) ∧ p.length < chunk.length := by
  have hpos : 0 < chunk.length := by omega
  have hsize : chunk.length * 6 / 10 < chunk.length := by
    rw [Nat.div_lt_iff_lt_mul (by omega)]
    omega
  unfold resplitPieces
  rw [driverPackAux_eq_groups]
  have hflat : (packGroupsAux (chunk.length * 6 / 10) (pyWords chunk) [] 0).flatten
      = pyWords chunk := by
    rw [packGroupsAux_flatten]
    rfl
  constructor
  · intro hmap
    rw [List.map_eq_nil_iff] at hmap
    rw [hmap] at hflat
    exact hw hflat.symm
  · intro p hp
    rw [List.mem_map] at hp
    obtain ⟨g, hg, hpg⟩ := hp
    subst hpg
    have hgne : g ≠ [] := packGroupsAux_ne_nil _ _ _ _ g hg
    have hgsub : ∀ w ∈ g, w ∈ pyWords chunk := by
      intro w hwg
      rw [← hflat]
      exact List.mem_flatten.mpr ⟨g, hg, hwg⟩
    have hgwords : ∀ w ∈ g, w ≠ [] ∧ ∀ c ∈ w, ¬ isSpaceB c = true :=
      fun w hwg => ⟨mem_toks_ne_nil w (hgsub w hwg), mem_toks_no_sep w (hgsub w hwg)⟩
    have hwords : pyWords (pyStrip (joinSpace g)) = g := by
      rw [pyWords_pyStrip, pyWords_joinSpace hgwords]
    refine ⟨by rw [hwords]; exact hgne, by rw [hwords]; exact fun w hwg => hwlen w (hgsub w hwg), ?_⟩
    have hlen1 : (pyStrip (joinSpace g)).length ≤ (joinSpace g).length :=
      pyStrip_length_le _
    have hjl : (joinSpace g).length + 1 = sumTrack g := joinSpace_length hgne
    rcases packGroupsAux_size _ _ _ _ (by simp [sumTrack]) (by simp) g hg with h1 | h1
    · obtain ⟨w, hgw⟩ := List.length_eq_one.mp h1
      subst hgw
      have hwN : w.length ≤ N := hwlen w (hgsub w (by simp))
      have : sumTrack [w] = w.length + 1 := by simp [sumTrack]
      omega
    · omega

theorem processPiecesF_trace (f : List Char → Option (List Int × Nat) × List (List Char)) :
    ∀ ps, (processPiecesF f ps).2 = (ps.map (fun p => (f p).2)).flatten := by
  intro ps
  induction ps with
  | nil => rfl
  | cons p ps ih =>
    unfold processPiecesF
    cases h : (f p).1 with
    | some v =>
      cases v with
      | mk s sr => simp [h, ih]
    | none => simp [h, ih]

theorem processPiecesF_success (f : List Char → Option (List Int × Nat) × List (List Char)) :
    ∀ ps, ps ≠ [] →
      (∀ p ∈ ps, ∃ s r, (f p).1 = some (s, r) ∧ s ≠ []) →
      (processPiecesF f ps).1.1 ≠ [] := by
  intro ps hne hall
  cases ps with
  | nil => exact absurd rfl hne
  | cons p ps =>
    obtain ⟨s, r, hsr, hsne⟩ := hall p (by simp)
    unfold processPiecesF
    dsimp only
    rw [hsr]
    dsimp only
    intro hcontra
    rw [List.append_eq_nil] at hcontra
    exact hsne hcontra.1

theorem process_chunk_strong (synth : List Char → SynthRes) (N : Nat)
    (hLong : ∀ t : List Char, N < t.length → synth t = .tooLong)
    (hOk : ∀ t : List Char, t.length ≤ N → ∃ s r, synth t = .ok s r ∧ s ≠ []) :
    ∀ fuel (text : List Char), text.length < fuel → pyWords text ≠ [] →
      (∀ w ∈ pyWords text, w.length ≤ N) →
      (∃ s r, (process_chunk_sequential synth fuel text).1 = some (s, r) ∧ s ≠ []) ∧
        (∀ t ∈ (process_chunk_sequential synth fuel text).2, t.length ≤ text.length) ∧
        ((process_chunk_sequential synth fuel text).2).count text = 1 := by
  intro fuel
  induction fuel with
  | zero => intro text hlen; omega
  | succ f ih =>
    intro text hlen hw hwlen
    by_cases hle : text.length ≤ N
    · obtain ⟨s, r, hsr, hsne⟩ := hOk text hle
      have heq : process_chunk_sequential synth (f + 1) text = (some (s, r), [text]) := by
        unfold process_chunk_sequential
        rw [hsr]
      rw [heq]
      refine ⟨⟨s, r, rfl, hsne⟩, by simp, by simp⟩
    · have htl : synth text = .tooLong := hLong text (by omega)
      obtain ⟨hne, hspec⟩ := resplitPieces_spec hw hwlen (by omega)
      have hpieceIH : ∀ p ∈ resplitPieces text (text.length * 6 / 10),
          (∃ s r, (process_chunk_sequential synth f p).1 = some (s, r) ∧ s ≠ []) ∧
            (∀ t ∈ (process_chunk_sequential synth f p).2, t.length ≤ p.length) ∧
            ((process_chunk_sequential synth f p).2).count p = 1 := by
        intro p hp
        have hplen := (hspec p hp).2.2
        exact ih p (by omega) (hspec p hp).1 (hspec p hp).2.1
      have hsubne : (processPiecesF (process_chunk_sequential synth f)
          (resplitPieces text (text.length * 6 / 10))).1.1 ≠ [] :=
        processPiecesF_success _ _ hne (fun p hp => (hpieceIH p hp).1)
      have heq : process_chunk_sequential synth (f + 1) text =
          (some ((processPiecesF (process_chunk_sequential synth f)
              (resplitPieces text (text.length * 6 / 10))).1.1,
            ((processPiecesF (process_chunk_sequential synth f)
              (resplitPieces text (text.length * 6 / 10))).1.2).getD 0),
            text :: (processPiecesF (process_chunk_sequential synth f)
              (resplitPieces text (text.length * 6 / 10))).2) := by
        unfold process_chunk_sequential
        rw [htl]
        simp only
        rw [if_neg (by simpa using hsubne)]
      rw [heq]
      have htrace : ∀ t ∈ (processPiecesF (process_chunk_sequential synth f)
          (resplitPieces text (text.length * 6 / 10))).2, t.length < text.length := by
        intro t ht
        rw [processPiecesF_trace] at ht
        rw [List.mem_flatten] at ht
        obtain ⟨tr, htr, htin⟩ := ht
        rw [List.mem_map] at htr
        obtain ⟨p, hp, hpt⟩ := htr
        subst hpt
        have h1 := (hpieceIH p hp).2.1 t htin
        have h2 := (hspec p hp).2.2
        omega
      refine ⟨⟨_, _, rfl, hsubne⟩, ?_, ?_⟩
      · intro t ht
        rcases List.mem_cons.mp ht with h | h
        · subst h; exact Nat.le_refl _
        · exact Nat.le_of_lt (htrace t h)
      · rw [List.count_cons_self]
        have : (processPiecesF (process_chunk_sequential synth f)
            (resplitPieces text (text.length * 6 / 10))).2.count text = 0 := by
          rw [List.count_eq_zero]
          intro hmem
          exact absurd (htrace text hmem) (by omega)
        omega

/-- C3 (amended): for a backend that fails with the "too long" signal
exactly on inputs longer than `N` characters and succeeds with nonempty
samples otherwise, the driver terminates on any input — length `10 N`
included — *provided* the input has at least one whitespace-delimited word
and no word exceeds `N` characters: fuel `len+1` already suffices, the
concatenated samples are nonempty, and the backend is called on the
unmodified original chunk exactly once.  Each retry level re-splits at
target `len * 6 / 10`, 60% of the current chunk's length, by definition of
`process_chunk_sequential`.  (Without the added word hypothesis the claim
is false: see the divergence counterexample.) -/
theorem process_chunk_retry_convergence (synth : List Char → SynthRes) (N : Nat)
    (hLong : ∀ t : List Char, N < t.length → synth t = .tooLong)
    (hOk : ∀ t : List Char, t.length ≤ N → ∃ s r, synth t = .ok s r ∧ s ≠ [])
    (text : List Char) (hw : pyWords text ≠ [])
    (hwlen : ∀ w ∈ pyWords text, w.length ≤ N) :
    (∃ s r, (process_chunk_sequential synth (text.length + 1) text).1 = some (s, r) ∧ s ≠ []) ∧
      ((process_chunk_sequential synth (text.length + 1) text).2).count text = 1 := by
  obtain ⟨h1, _, h3⟩ := process_chunk_strong synth N hLong hOk (text.length + 1) text
    (by omega) hw hwlen
  exact ⟨h1, h3⟩

/-- The claim's mock backend with `N = 3`: "too long" beyond 3 characters,
fixed nonempty samples otherwise. -/
def synthMock3 : List Char → SynthRes :=
  fun t => if t.length ≤ 3 then .ok [1] 24000 else .tooLong

/-- Witness instance for `process_chunk_retry_convergence`:
`N = 3`, input `"aa " * 10` of length `30 = 10 N`. -/
theorem process_chunk_retry_convergence_witness :
    (∃ s r, (process_chunk_sequential synthMock3 ("aa aa aa aa aa aa aa aa aa aa ".toList.length + 1)
        "aa aa aa aa aa aa aa aa aa aa ".toList).1 = some (s, r) ∧ s ≠ []) ∧
      ((process_chunk_sequential synthMock3 ("aa aa aa aa aa aa aa aa aa aa ".toList.length + 1)
        "aa aa aa aa aa aa aa aa aa aa ".toList).2).count
        "aa aa aa aa aa aa aa aa aa aa ".toList = 1 :=
  process_chunk_retry_convergence synthMock3 3
    (fun t h => by unfold synthMock3; rw [if_neg (by omega)])
    (fun t h => ⟨[1], 24000, by unfold synthMock3; rw [if_pos h], by decide⟩)
    "aa aa aa aa aa aa aa aa aa aa ".toList (by decide) (by decide)

/-- The mock with `N = 1`. -/
def synthMock1 : List Char → SynthRes :=
  fun t => if t.length ≤ 1 then .ok [1] 24000 else .tooLong

theorem process_chunk_diverges_aux :
    ∀ fuel, (process_chunk_sequential synthMock1 fuel (List.replicate 10 'a')).1 = none := by
  intro fuel
  induction fuel with
  | zero => rfl
  | succ f ih =>
    have hsy : synthMock1 (List.replicate 10 'a') = .tooLong := by decide
    have hpieces : resplitPieces (List.replicate 10 'a')
        ((List.replicate 10 'a').length * 6 / 10) = [List.replicate 10 'a'] := by decide
    unfold process_chunk_sequential
    rw [hsy]
    dsimp only
    rw [hpieces]
    unfold processPiecesF
    dsimp only
    rw [ih]
    rfl

/-- C3 counterexample: with `N = 1` the mock fails "too long" exactly on
inputs longer than `N`, yet on the single 10-character word `aaaaaaaaaa`
(length `10 N`) the driver never terminates — the 60% re-split returns the
same single word, so the recursion makes no progress and the backend is
called on the unmodified original chunk at every level. -/
theorem process_chunk_divergence_cex :
    ¬ ∃ fuel s r, (process_chunk_sequential synthMock1 fuel
      (List.replicate 10 'a')).1 = some (s, r) := by
  rintro ⟨fuel, s, r, h⟩
  rw [process_chunk_diverges_aux fuel] at h
  exact Option.noConfusion h

/-!
### C1: split-output resume loop
(`convert_text_to_audio`, kokoro-tts.py lines 926-954)

The on-disk chapter directory is modelled as `fs : Nat → Option (List Int)`:
`fs i = some data` iff the artifact file `chunk_{i:03d}.<fmt>` exists, `data`
being its contents (`some []` models an existing zero-byte file).  The
backend (`process_chunk_sequential` plus `sf.write`) is abstracted as
`synth : List Char → Option (List Int)`.  The per-chapter loop enumerates
chunks from index 1; the second component of the result lists the indices
for which a synthesis call was issued, in order.
-/

def processChunksFrom (synth : List Char → Option (List Int)) :
    List (Nat × List Char) → (Nat → Option (List Int)) →
      (Nat → Option (List Int)) × List Nat
  | [], fs => (fs, [])
  | (i, c) :: rest, fs =>
    if (fs i).isSome then
      processChunksFrom synth rest fs
    else
      match synth c with
      | some samples =>
        let step := processChunksFrom synth rest (fun j => if j = i then some samples else fs j)
        (step.1, i :: step.2)
      | none =>
        let step := processChunksFrom synth rest fs
        (step.1, i :: step.2)

/-- One resumable pass over a chapter's chunk list (chunk files indexed
from 1), given the existing directory contents `fs`. -/
def processChapterChunks (synth : List Char → Option (List Int))
    (chunks : List (List Char)) (fs : Nat → Option (List Int)) :
    (Nat → Option (List Int)) × List Nat :=
  processChunksFrom synth (chunks.enumFrom 1) fs

theorem processChunksFrom_skips_existing (synth : List Char → Option (List Int)) :
    ∀ (l : List (Nat × List Char)) (fs : Nat → Option (List Int)) (i : Nat),
      (fs i).isSome → i ∉ (processChunksFrom synth l fs).2 := by
  intro l
  induction l with
  | nil => intro fs i _; simp [processChunksFrom]
  | cons jc rest ih =>
    intro fs i hi
    obtain ⟨j, c⟩ := jc
    unfold processChunksFrom
    by_cases hj : (fs j).isSome
    · rw [if_pos hj]
      exact ih fs i hi
    · rw [if_neg hj]
      have hij : i ≠ j := fun h => hj (h ▸ hi)
      cases hc : synth c with
      | some samples =>
        dsimp only
        intro hmem
        rcases List.mem_cons.mp hmem with h | h
        · exact hij h
        · refine ih (fun k => if k = j then some samples else fs k) i ?_ h
          show (if i = j then some samples else fs i).isSome = true
          rw [if_neg hij]
          exact hi
      | none =>
        dsimp only
        intro hmem
        rcases List.mem_cons.mp hmem with h | h
        · exact hij h
        · exact ih fs i hi h

/-- C1 (amended): the resume loop treats a chunk index as done exactly when
its artifact file *exists* — emptiness is never examined — and it never
issues a synthesis call for an existing artifact; in particular, a second
run over the same chunk list performs zero synthesis calls for every chunk
whose artifact exists after the first run. -/
theorem resume_never_resynthesizes (synth : List Char → Option (List Int))
    (chunks : List (List Char)) (fs0 : Nat → Option (List Int)) (i : Nat)
    (hdone : ((processChapterChunks synth chunks fs0).1 i).isSome) :
    i ∉ (processChapterChunks synth chunks ((processChapterChunks synth chunks fs0).1)).2 :=
  processChunksFrom_skips_existing synth (chunks.enumFrom 1)
    ((processChapterChunks synth chunks fs0).1) i hdone

/-- Witness instance for `resume_never_resynthesizes`. -/
theorem resume_never_resynthesizes_witness :
    (((processChapterChunks (fun _ => some [5]) [['a']] (fun _ => none)).1 1).isSome = true) ∧
      1 ∉ (processChapterChunks (fun _ => some [5]) [['a']]
        ((processChapterChunks (fun _ => some [5]) [['a']] (fun _ => none)).1)).2 :=
  ⟨by decide, resume_never_resynthesizes (fun _ => some [5]) [['a']] (fun _ => none) 1 (by decide)⟩

/-- C1 counterexample: an artifact file that exists but is *empty* is still
treated as done — the loop issues zero synthesis calls for index 1 even
though its artifact is `some []`, contradicting the claim that an index is
done exactly when its artifact exists *and is non-empty*. -/
theorem resume_done_despite_empty_artifact_cex :
    (processChapterChunks (fun _ => some [5]) [['a']]
        (fun i => if i = 1 then some [] else none)).2 = [] ∧
      (fun i => if i = 1 then some ([] : List Int) else none) 1 = some [] := by
  constructor
  · rfl
  · rfl

/-!
### C2: merging a chapter directory
(`merge_chunks_to_chapters`, kokoro-tts.py lines 1081-1179)

A chapter directory is modelled as the list of present chunk-artifact files
`(index, samples, sample_rate)`; `sorted(...)` over the zero-padded file
names `chunk_{i:03d}` is index order.  Reading a file yields its samples
and rate (`sf.read`).  The merge returns `none` when no valid audio data
accumulated, else the concatenated samples with the adopted rate.
-/

def insertByIdx (x : Nat × List Int × Nat) :
    List (Nat × List Int × Nat) → List (Nat × List Int × Nat)
  | [] => [x]
  | y :: ys => if x.1 ≤ y.1 then x :: y :: ys else y :: insertByIdx x ys

def sortByIdx : List (Nat × List Int × Nat) → List (Nat × List Int × Nat)
  | [] => []
  | x :: xs => insertByIdx x (sortByIdx xs)

def mergeLoop : List (Nat × List Int × Nat) → List Int → Option Nat → List Int × Option Nat
  | [], acc, r => (acc, r)
  | f :: rest, acc, r =>
    if f.2.1.isEmpty then mergeLoop rest acc r
    else
      match r with
      | none => mergeLoop rest (acc ++ f.2.1) (some f.2.2)
      | some r0 => if f.2.2 == r0 then mergeLoop rest (acc ++ f.2.1) (some r0)
                   else mergeLoop rest acc (some r0)

/-- Merge one chapter directory: read the present chunk files in file-name
order, skip empty data, adopt the first file's sample rate and skip files
whose rate mismatches, concatenate the rest. -/
def merge_chunks_dir (files : List (Nat × List Int × Nat)) : Option (List Int × Nat) :=
  let res := mergeLoop (sortByIdx files) [] none
  if res.1.isEmpty then none else some (res.1, res.2.getD 0)

theorem mem_insertByIdx {x y : Nat × List Int × Nat} :
    ∀ {l : List (Nat × List Int × Nat)}, y ∈ insertByIdx x l → y = x ∨ y ∈ l := by
  intro l
  induction l with
  | nil => intro h; simp only [insertByIdx, List.mem_singleton] at h; exact Or.inl h
  | cons z zs ih =>
    intro h
    unfold insertByIdx at h
    by_cases hle : x.1 ≤ z.1
    · rw [if_pos hle] at h
      rcases List.mem_cons.mp h with h1 | h1
      · exact Or.inl h1
      · exact Or.inr h1
    · rw [if_neg hle] at h
      rcases List.mem_cons.mp h with h1 | h1
      · exact Or.inr (h1 ▸ List.mem_cons_self _ _)
      · rcases ih h1 with h2 | h2
        · exact Or.inl h2
        · exact Or.inr (List.mem_cons_of_mem _ h2)

theorem mem_sortByIdx {y : Nat × List Int × Nat} :
    ∀ {l : List (Nat × List Int × Nat)}, y ∈ sortByIdx l → y ∈ l := by
  intro l
  induction l with
  | nil => intro h; exact h
  | cons x xs ih =>
    intro h
    rcases mem_insertByIdx h with h1 | h1
    · exact h1 ▸ List.mem_cons_self _ _
    · exact List.mem_cons_of_mem _ (ih h1)

theorem length_insertByIdx (x : Nat × List Int × Nat) :
    ∀ (l : List (Nat × List Int × Nat)), (insertByIdx x l).length = l.length + 1 := by
  intro l
  induction l with
  | nil => rfl
  | cons z zs ih =>
    unfold insertByIdx
    by_cases hle : x.1 ≤ z.1
    · rw [if_pos hle]; rfl
    · rw [if_neg hle]
      simp [ih]

theorem length_sortByIdx :
    ∀ (l : List (Nat × List Int × Nat)), (sortByIdx l).length = l.length := by
  intro l
  induction l with
  | nil => rfl
  | cons x xs ih =>
    unfold sortByIdx
    rw [length_insertByIdx, ih]
    rfl

theorem pairwise_insertByIdx {x : Nat × List Int × Nat} :
    ∀ {l : List (Nat × List Int × Nat)},
      l.Pairwise (fun a b => a.1 ≤ b.1) →
      (insertByIdx x l).Pairwise (fun a b => a.1 ≤ b.1) := by
  intro l
  induction l with
  | nil => intro _; exact List.pairwise_singleton _ _
  | cons z zs ih =>
    intro h
    rw [List.pairwise_cons] at h
    unfold insertByIdx
    by_cases hle : x.1 ≤ z.1
    · rw [if_pos hle]
      rw [List.pairwise_cons]
      constructor
      · intro b hb
        rcases List.mem_cons.mp hb with h1 | h1
        · subst h1; omega
        · have := h.1 b h1
          omega
      · rw [List.pairwise_cons]
        exact h
    · rw [if_neg hle]
      rw [List.pairwise_cons]
      constructor
      · intro b hb
        rcases mem_insertByIdx hb with h1 | h1
        · subst h1; omega
        · exact h.1 b h1
      · exact ih h.2

theorem pairwise_sortByIdx :
    ∀ (l : List (Nat × List Int × Nat)),
      (sortByIdx l).Pairwise (fun a b => a.1 ≤ b.1) := by
  intro l
  induction l with
  | nil => exact List.Pairwise.nil
  | cons x xs ih => exact pairwise_insertByIdx ih

theorem mergeLoop_same_rate {r : Nat} :
    ∀ (l : List (Nat × List Int × Nat)) (acc : List Int),
      (∀ f ∈ l, f.2.1 ≠ [] ∧ f.2.2 = r) →
      mergeLoop l acc (some r) = (acc ++ (l.map (fun f => f.2.1)).flatten, some r) := by
  intro l
  induction l with
  | nil => intro acc _; simp [mergeLoop]
  | cons f rest ih =>
    intro acc hall
    obtain ⟨hne, hr⟩ := hall f (by simp)
    unfold mergeLoop
    rw [if_neg (by simpa using hne)]
    dsimp only
    rw [if_pos (by simp [hr])]
    rw [ih (acc ++ f.2.1) (fun g hg => hall g (List.mem_cons_of_mem _ hg))]
    simp

theorem mergeLoop_start {r : Nat} (f : Nat × List Int × Nat)
    (rest : List (Nat × List Int × Nat))
    (hf : f.2.1 ≠ [] ∧ f.2.2 = r)
    (hrest : ∀ g ∈ rest, g.2.1 ≠ [] ∧ g.2.2 = r) :
    mergeLoop (f :: rest) [] none =
      (((f :: rest).map (fun g => g.2.1)).flatten, some r) := by
  unfold mergeLoop
  rw [if_neg (by simpa using hf.1)]
  dsimp only
  rw [hf.2, mergeLoop_same_rate rest ([] ++ f.2.1) hrest]
  simp

/-- C2 (amended): the merge reads the present artifacts in ascending index
order and silently concatenates them; it performs no missing-index check,
so gaps in the contiguous range produce a shorter merged file with no
error.  For any nonempty set of non-empty artifacts sharing one rate the
result is the concatenation over the index-sorted file list — whether or
not the indices are contiguous. -/
theorem merge_concats_present_chunks (files : List (Nat × List Int × Nat)) (r : Nat)
    (hne : files ≠ [])
    (hall : ∀ f ∈ files, f.2.1 ≠ [] ∧ f.2.2 = r) :
    merge_chunks_dir files =
        some ((((sortByIdx files).map (fun f => f.2.1)).flatten), r) ∧
      (sortByIdx files).Pairwise (fun a b => a.1 ≤ b.1) := by
  have hsne : sortByIdx files ≠ [] := by
    intro h
    have := length_sortByIdx files
    rw [h] at this
    exact hne (List.length_eq_zero.mp this.symm)
  have hall2 : ∀ f ∈ sortByIdx files, f.2.1 ≠ [] ∧ f.2.2 = r :=
    fun f hf => hall f (mem_sortByIdx hf)
  refine ⟨?_, pairwise_sortByIdx files⟩
  unfold merge_chunks_dir
  cases hs : sortByIdx files with
  | nil => exact absurd hs hsne
  | cons f rest =>
    have hf := hall2 f (by rw [hs]; exact List.mem_cons_self _ _)
    have hrest : ∀ g ∈ rest, g.2.1 ≠ [] ∧ g.2.2 = r := by
      intro g hg
      exact hall2 g (by rw [hs]; exact List.mem_cons_of_mem _ hg)
    rw [mergeLoop_start f rest hf hrest]
    dsimp only
    rw [if_neg (by
      simp only [List.isEmpty_eq_true, List.flatten_eq_nil_iff]
      intro hcontra
      exact hf.1 (hcontra f.2.1 (List.mem_map_of_mem _ (List.mem_cons_self _ _))))]
    rfl

/-- Witness instance for `merge_concats_present_chunks` (at the gapped
directory {1,2,4} itself). -/
theorem merge_concats_present_chunks_witness :
    merge_chunks_dir [(1, ([1] : List Int), 8), (2, [2], 8), (4, [3], 8)] =
        some ([1, 2, 3], 8) ∧
      (sortByIdx [(1, ([1] : List Int), 8), (2, [2], 8), (4, [3], 8)]).Pairwise
        (fun a b => a.1 ≤ b.1) := by
  have h := merge_concats_present_chunks [(1, ([1] : List Int), 8), (2, [2], 8), (4, [3], 8)] 8
    (by decide) (by decide)
  refine ⟨?_, h.2⟩
  rw [h.1]
  rfl

/-- C2 counterexample: with artifacts at indices {1,2,4} and index 3
missing from the contiguous range [1..4], the merge does *not* fail with a
missing-index error — it succeeds and silently returns the three-chunk
concatenation. -/
theorem merge_missing_index_cex :
    merge_chunks_dir [(1, ([1] : List Int), 8), (2, [2], 8), (4, [3], 8)] =
        some ([1, 2, 3], 8) ∧
      (∀ f ∈ [(1, ([1] : List Int), 8), (2, [2], 8), (4, [3], 8)], f.1 ≠ 3) ∧
      3 < 4 := by
  decide

/-!
### C10: whole-document accumulation
(`convert_text_to_audio`, kokoro-tts.py lines 975-1015)

In non-split, non-stream mode the per-chunk results are folded as in lines
991-1001: on a successful chunk, set the output sample rate if it is still
unset, then append the samples unconditionally.  The chunk results are
abstracted as a list of `Option (samples × rate)`.
-/

def accumulateWholeDoc (results : List (Option (List Int × Nat))) : List Int × Option Nat :=
  results.foldl
    (fun acc r =>
      match r with
      | some (s, sr) => (acc.1 ++ s, match acc.2 with | none => some sr | some x => some x)
      | none => acc)
    ([], none)

theorem accumulate_foldl_some (r0 : Nat) :
    ∀ (rs : List (Option (List Int × Nat))) (s0 : List Int),
      rs.foldl
        (fun acc r =>
          match r with
          | some (s, sr) => (acc.1 ++ s, match acc.2 with | none => some sr | some x => some x)
          | none => acc)
        (s0, some r0) =
      (s0 ++ ((rs.filterMap id).map (fun v => v.1)).flatten, some r0) := by
  intro rs
  induction rs with
  | nil => intro s0; simp
  | cons r rs ih =>
    intro s0
    cases r with
    | none =>
      rw [List.foldl_cons]
      dsimp only
      rw [ih s0]
      simp
    | some v =>
      obtain ⟨s, sr⟩ := v
      rw [List.foldl_cons]
      dsimp only
      rw [ih (s0 ++ s)]
      simp

/-!
### Chapters and the three extractors
-/

structure Chapter where
  title : List Char
  content : List Char
  order : Option Nat
deriving DecidableEq

/-!
#### PDF extraction (`PdfParser`, kokoro-tts.py lines 446-674)

A PDF document is modelled by its native outline `toc` (entries
`(level, title, page)`, pages 1-based as in PyMuPDF's `get_toc`) and the
raw text of its pages.  `pymupdf4llm.to_markdown` is an external black box;
`get_chapters_from_markdown` therefore takes the markdown text it would
produce as input.
-/

structure PdfDoc where
  toc : List (Nat × List Char × Nat)
  pages : List (List Char)

/-- `_clean_title` (line 649): strip, then replace the zero-width space
U+200B by a plain space. -/
def clean_title (t : List Char) : List Char :=
  (pyStrip t).map (fun c => if c == '\u200B' then ' ' else c)

/-- The level-1 marker selection of `get_chapters_from_toc` (lines 529-538):
keep level-1 entries with nonempty cleaned titles whose start page was not
already used. -/
def chapterMarkersAux : List (Nat × List Char × Nat) → List Nat → List (List Char × Nat)
  | [], _ => []
  | e :: rest, seen =>
    if e.1 == 1 then
      let t := clean_title e.2.1
      if !t.isEmpty && !(seen.contains e.2.2) then
        (t, e.2.2) :: chapterMarkersAux rest (e.2.2 :: seen)
      else chapterMarkersAux rest seen
    else chapterMarkersAux rest seen

/-- Python `'\n'.join`. -/
def joinNl : List (List Char) → List Char
  | [] => []
  | [p] => p
  | p :: ps => p ++ '\n' :: joinNl ps

/-- `_extract_chapter_text` (lines 661-674): raw text of pages
`[startPage, endPage)` (0-based), newline-joined. -/
def extract_chapter_text (doc : PdfDoc) (startPage endPage : Nat) : List Char :=
  joinNl ((doc.pages.drop startPage).take (endPage - startPage))

/-- The chapter loop of `get_chapters_from_toc` (lines 551-573): chapter `i`
spans from its start page to one page before the next marker's start (or to
the document end), is kept only when its stripped text is longer than
`min_chapter_length`, and carries `order = i + 1`. -/
def get_chapters_from_toc (doc : PdfDoc) (minLen : Nat) : List Chapter :=
  let markers := chapterMarkersAux doc.toc []
  (markers.enum).filterMap (fun im =>
    let endPage := match markers.get? (im.1 + 1) with
      | some m2 => m2.2 - 1
      | none => doc.pages.length
    let text := extract_chapter_text doc (im.2.2 - 1) endPage
    if minLen < (pyStrip text).length then
      some ⟨im.2.1, text, some (im.1 + 1)⟩
    else none)

/-- Collapse every maximal whitespace run into one space
(`re.sub(r'\s+', ' ', text)`, line 658). -/
def collapseWsAux : Bool → List Char → List Char
  | _, [] => []
  | inRun, c :: rest =>
    if isSpaceB c then
      if inRun then collapseWsAux true rest else ' ' :: collapseWsAux true rest
    else c :: collapseWsAux false rest

/-- `_clean_markdown` (lines 653-659): remove every `-`, collapse all
whitespace (newlines included) to single spaces, strip. -/
def clean_markdown (text : List Char) : List Char :=
  pyStrip (collapseWsAux false (text.filter (fun c => !(c == '-'))))

def startsWithHash : List Char → Bool
  | '#' :: _ => true
  | _ => false

/-- `f"Chapter {cnt}_{line.lstrip('#').strip()}"` (line 626). -/
def mdTitle (cnt : Nat) (line : List Char) : List Char :=
  "Chapter ".toList ++ Nat.toDigits 10 cnt ++ '_' :: pyStrip (line.dropWhile (fun c => c == '#'))

/-- The chapter loop of `get_chapters_from_markdown` (lines 608-640). -/
def mdLoop (minLen : Nat) : List (List Char) → Option (List Char) → List (List Char) → Nat → List Chapter
  | [], cur, curText, cnt =>
    match cur with
    | some t =>
      if !t.isEmpty && !curText.isEmpty && minLen < (pyStrip curText.flatten).length then
        [⟨t, curText.flatten, some cnt⟩]
      else []
    | none => []
  | line :: rest, cur, curText, cnt =>
    if startsWithHash line then
      (match cur with
       | some t =>
         if !t.isEmpty && !curText.isEmpty && minLen < (pyStrip curText.flatten).length then
           [⟨t, curText.flatten, some cnt⟩]
         else []
       | none => []) ++
        mdLoop minLen rest (some (mdTitle (cnt + 1) line)) [] (cnt + 1)
    else
      match cur with
      | some t => mdLoop minLen rest (some t) (curText ++ [line ++ ['\n']]) cnt
      | none => mdLoop minLen rest none curText cnt

/-- `get_chapters_from_markdown` (lines 585-647) on the markdown text the
external converter produced: clean it, then split on newlines and scan for
heading lines. -/
def get_chapters_from_markdown (mdText : List Char) (minLen : Nat) : List Chapter :=
  mdLoop minLen (splitAll (fun c => c == '\n') (clean_markdown mdText)) none [] 0

/-!
#### EPUB TOC extraction
(`extract_chapters_from_epub`, kokoro-tts.py lines 242-444)

The TOC tree mirrors ebooklib's mix of `Link` entries and
`(section_title, items)` tuples.  A content document is `(file_name, text)`
where `text` stands for the parser's `soup.get_text()` output;
`get_chapter_content` — the BeautifulSoup fragment walk of lines 267-291 —
is an injected black box `fragF doc_text fragment_id next_fragment`.
-/

inductive TocItem where
  | link : List Char → List Char → TocItem
  | sect : List Char → List TocItem → TocItem

def pyLower (s : List Char) : List Char := s.map Char.toLower

/-- The front-matter skip of lines 306-307. -/
def isFrontMatterTitle (t : List Char) : Bool :=
  let l := pyLower t
  l == "copy".toList || l == "copyright".toList || l == "title page".toList ||
    l == "cover".toList || "by".toList.isPrefixOf l

def splitOnHash (s : List Char) : List (List Char) :=
  splitAll (fun c => c == '#') s

/-- `next(doc for doc in documents if doc.file_name.endswith(file_name))`. -/
def findDocByHref (docs : List (List Char × List Char)) (fileName : List Char) :
    Option (List Char × List Char) :=
  docs.find? (fun d => fileName.isSuffixOf d.1)

/-- The next-sibling fragment lookup of lines 328-333. -/
def nextFragmentOf (fileName : List Char) : List TocItem → Option (List Char)
  | TocItem.link _ href :: _ =>
    let parts := splitOnHash href
    if parts.headD [] == fileName ∧ 1 < parts.length then parts.get? 1 else none
  | _ => none

/-- `process_toc_items` (lines 293-349).  `pc` is `len(processed)` of the
current recursion level; note the faithful quirk that a nested section's
recursive call starts its own `processed` list at zero. -/
def goTocAux (docs : List (List Char × List Char))
    (fragF : List Char → List Char → Option (List Char) → List Char) :
    List TocItem → Nat → List Chapter × Nat
  | [], pc => ([], pc)
  | TocItem.sect _ sub :: rest, pc =>
    let inner := goTocAux docs fragF sub 0
    let outer := goTocAux docs fragF rest (pc + inner.2)
    (inner.1 ++ outer.1, outer.2)
  | TocItem.link title href :: rest, pc =>
    if isFrontMatterTitle title then goTocAux docs fragF rest pc
    else
      match findDocByHref docs ((splitOnHash href).headD []) with
      | none => goTocAux docs fragF rest pc
      | some d =>
        let text :=
          match (splitOnHash href).get? 1 with
          | none => pyStrip d.2
          | some frag => fragF d.2 frag (nextFragmentOf ((splitOnHash href).headD []) rest)
        if text.isEmpty then goTocAux docs fragF rest pc
        else
          let res := goTocAux docs fragF rest (pc + 1)
          (⟨title, text, some (pc + 1)⟩ :: res.1, res.2)

/-- The TOC walk of `extract_chapters_from_epub`. -/
def extract_chapters_from_epub_toc (docs : List (List Char × List Char))
    (fragF : List Char → List Char → Option (List Char) → List Char)
    (toc : List TocItem) : List Chapter :=
  (goTocAux docs fragF toc 0).1

def isLinkT : TocItem → Bool
  | .link .. => true
  | .sect .. => false

/-!
#### The input dispatch of `convert_text_to_audio`
(kokoro-tts.py lines 844-881 and the exit path of `__main__`)

Only the EPUB branch checks for zero chapters (lines 847-849,
`sys.exit(1)`); the PDF branch takes whatever `PdfParser.get_chapters`
returned, and a text file always becomes the single chapter
`{'title': 'Chapter 1', 'content': text}` with no `order` key.  When the
conversion function returns, the process exits 0.  `convertRun` returns
`(exit code, number of synthesis calls)`.
-/

inductive SourceFormat where
  | epubFmt
  | pdfFmt
  | txtFmt
deriving DecidableEq

def txtChapters (text : List Char) : List Chapter :=
  [⟨"Chapter 1".toList, text, none⟩]

def totalChunkCount (chapters : List Chapter) : Nat :=
  (chapters.map (fun ch => (chunk_text ch.content 1000).length)).sum

def convertRun (fmt : SourceFormat) (chapters : List Chapter) : Nat × Nat :=
  match fmt with
  | .epubFmt => if chapters.isEmpty then (1, 0) else (0, totalChunkCount chapters)
  | .pdfFmt => (0, totalChunkCount chapters)
  | .txtFmt => (0, totalChunkCount chapters)

/-- C10: in whole-document mode the final sample rate is that of the first
successful chunk — later rates are never compared against it — and the
samples of every successful chunk are concatenated unconditionally; in
particular a chunk whose rate differs from the adopted one still
contributes its samples (second conjunct), unlike in the merger. -/
theorem whole_doc_first_rate_concat_all (results : List (Option (List Int × Nat))) :
    accumulateWholeDoc results =
        (((results.filterMap id).map (fun v => v.1)).flatten,
          ((results.filterMap id).head?).map (fun v => v.2)) ∧
      accumulateWholeDoc [some ([1], 8), some ([2], 9)] = ([1, 2], some 8) := by
  refine ⟨?_, by decide⟩
  induction results with
  | nil => rfl
  | cons r rs ih =>
    cases r with
    | none =>
      have hstep : accumulateWholeDoc (none :: rs) = accumulateWholeDoc rs := rfl
      rw [hstep, ih]
      simp
    | some v =>
      obtain ⟨s, sr⟩ := v
      have hstep : accumulateWholeDoc (some (s, sr) :: rs) =
          rs.foldl
            (fun acc r =>
              match r with
              | some (s, sr) => (acc.1 ++ s, match acc.2 with | none => some sr | some x => some x)
              | none => acc)
            ([] ++ s, some sr) := rfl
      rw [hstep, accumulate_foldl_some sr rs ([] ++ s)]
      simp

/-!
### C8: the markdown fallback is dead code

`_clean_markdown` replaces every whitespace run — newlines included — by a
single space *before* the chapter loop splits the text on newlines, so the
loop always sees exactly one line and can never complete a chapter.
-/

theorem collapseWsAux_no_newline : ∀ (b : Bool) (s : List Char), ('\n') ∉ collapseWsAux b s := by
  intro b s
  induction s generalizing b with
  | nil => simp [collapseWsAux]
  | cons c rest ih =>
    unfold collapseWsAux
    by_cases hc : isSpaceB c
    · rw [if_pos hc]
      by_cases hb : b
      · rw [if_pos hb]; exact ih true
      · rw [if_neg hb]
        intro hmem
        rcases List.mem_cons.mp hmem with h | h
        · exact absurd h (by decide)
        · exact ih true h
    · rw [if_neg hc]
      intro hmem
      rcases List.mem_cons.mp hmem with h | h
      · subst h; exact hc (by decide)
      · exact ih false h

theorem clean_markdown_no_newline (text : List Char) : ('\n') ∉ clean_markdown text := by
  intro h
  exact collapseWsAux_no_newline false (text.filter (fun c => !(c == '-'))) (mem_pyStrip h)

/-- C8: for *every* markdown conversion and every minimum length the
fallback extractor returns zero chapters — in particular it never returns
the k chapters the spec describes.  The cleaning step collapses every
newline to a space, so the subsequent `split('\n')` yields a single line:
if it is a heading the chapter has no body lines to accumulate, otherwise
no chapter ever starts. -/
theorem get_chapters_from_markdown_empty (mdText : List Char) (minLen : Nat) :
    get_chapters_from_markdown mdText minLen = [] := by
  unfold get_chapters_from_markdown
  rw [splitAll_no_sep (by
    intro c hc hdot
    have : c = '\n' := by simpa using hdot
    exact clean_markdown_no_newline mdText (this ▸ hc))]
  unfold mdLoop
  by_cases h : startsWithHash (clean_markdown mdText)
  · rw [if_pos h]
    simp [mdLoop]
  · rw [if_neg h]
    rfl

/-!
### C7: chapter order values
-/

theorem filterMap_enumFrom_orders {α : Type} (f : Nat × α → Option Chapter)
    (hord : ∀ (i : Nat) (m : α) (c : Chapter), f (i, m) = some c → c.order = some (i + 1)) :
    ∀ (ms : List α) (k : Nat),
      (((List.enumFrom k ms).filterMap f).filterMap Chapter.order).Pairwise (· < ·) ∧
        ∀ o ∈ ((List.enumFrom k ms).filterMap f).filterMap Chapter.order, k < o := by
  intro ms
  induction ms with
  | nil => intro k; exact ⟨List.Pairwise.nil, by simp⟩
  | cons m ms ih =>
    intro k
    have henum : List.enumFrom k (m :: ms) = (k, m) :: List.enumFrom (k + 1) ms := rfl
    rw [henum, List.filterMap_cons]
    cases hf : f (k, m) with
    | none =>
      exact ⟨(ih (k + 1)).1, fun o ho => Nat.lt_of_succ_lt ((ih (k + 1)).2 o ho)⟩
    | some c =>
      have hco : c.order = some (k + 1) := hord k m c hf
      rw [List.filterMap_cons, hco]
      constructor
      · rw [List.pairwise_cons]
        exact ⟨fun o ho => (ih (k + 1)).2 o ho, (ih (k + 1)).1⟩
      · intro o ho
        rcases List.mem_cons.mp ho with h | h
        · omega
        · exact Nat.lt_of_succ_lt ((ih (k + 1)).2 o h)

theorem goTocAux_flat (docs : List (List Char × List Char))
    (fragF : List Char → List Char → Option (List Char) → List Char) :
    ∀ (items : List TocItem) (pc : Nat),
      (∀ it ∈ items, isLinkT it = true) →
      (goTocAux docs fragF items pc).1.filterMap Chapter.order =
        List.range' (pc + 1) (goTocAux docs fragF items pc).1.length := by
  intro items
  induction items with
  | nil => intro pc _; simp [goTocAux]
  | cons it rest ih =>
    intro pc hflat
    cases it with
    | sect t sub =>
      have := hflat _ (List.mem_cons_self _ _)
      simp [isLinkT] at this
    | link title href =>
      unfold goTocAux
      by_cases hfm : isFrontMatterTitle title
      · rw [if_pos hfm]
        exact ih pc (fun u hu => hflat u (List.mem_cons_of_mem _ hu))
      · rw [if_neg hfm]
        cases hd : findDocByHref docs ((splitOnHash href).headD []) with
        | none => exact ih pc (fun u hu => hflat u (List.mem_cons_of_mem _ hu))
        | some d =>
          dsimp only
          by_cases htext : (match (splitOnHash href).get? 1 with
            | none => pyStrip d.2
            | some frag => fragF d.2 frag (nextFragmentOf ((splitOnHash href).headD []) rest)).isEmpty
          · rw [if_pos htext]
            exact ih pc (fun u hu => hflat u (List.mem_cons_of_mem _ hu))
          · rw [if_neg htext]
            dsimp only
            rw [List.filterMap_cons]
            dsimp only
            rw [ih (pc + 1) (fun u hu => hflat u (List.mem_cons_of_mem _ hu))]
            rfl

/-- Unfolding step of `goTocAux` on an empty item list. -/
theorem goTocAux_nil (docs : List (List Char × List Char))
    (fragF : List Char → List Char → Option (List Char) → List Char) (pc : Nat) :
    goTocAux docs fragF [] pc = ([], pc) := by
  simp [goTocAux]

/-- Unfolding step of `goTocAux` on a section entry. -/
theorem goTocAux_sect_step (docs : List (List Char × List Char))
    (fragF : List Char → List Char → Option (List Char) → List Char)
    (t : List Char) (sub rest : List TocItem) (pc : Nat) :
    goTocAux docs fragF (TocItem.sect t sub :: rest) pc =
      ((goTocAux docs fragF sub 0).1 ++
          (goTocAux docs fragF rest (pc + (goTocAux docs fragF sub 0).2)).1,
        (goTocAux docs fragF rest (pc + (goTocAux docs fragF sub 0).2)).2) := by
  conv_lhs => unfold goTocAux

/-- Unfolding step of `goTocAux` on a retained fragment-free link. -/
theorem goTocAux_link_step (docs : List (List Char × List Char))
    (fragF : List Char → List Char → Option (List Char) → List Char)
    (title href : List Char) (rest : List TocItem) (pc : Nat)
    (d : List Char × List Char)
    (hfm : isFrontMatterTitle title = false)
    (hfind : findDocByHref docs ((splitOnHash href).headD []) = some d)
    (hfrag : (splitOnHash href).get? 1 = none)
    (hne : (pyStrip d.2).isEmpty = false) :
    goTocAux docs fragF (TocItem.link title href :: rest) pc =
      (⟨title, pyStrip d.2, some (pc + 1)⟩ :: (goTocAux docs fragF rest (pc + 1)).1,
        (goTocAux docs fragF rest (pc + 1)).2) := by
  conv_lhs => unfold goTocAux
  rw [if_neg (by rw [hfm]; simp), hfind]
  dsimp only
  rw [hfrag]
  dsimp only
  rw [if_neg (by rw [hne]; simp)]

/-- The concrete EPUB book used to exhibit the nested-section order reset. -/
def epubDocsCex : List (List Char × List Char) :=
  [("a.html".toList, "Alpha body text".toList), ("b.html".toList, "Beta body text".toList)]

def epubTocNestedCex : List TocItem :=
  [TocItem.link "Alpha".toList "a.html".toList,
   TocItem.sect "Part One".toList [TocItem.link "Beta".toList "b.html".toList]]

/-- C7 (amended): (i) PDF TOC extraction always yields strictly increasing
`order` values, but they are the 1-based indices of the retained TOC
markers, so discarding a too-short chapter leaves a gap and can shift the
first order past 1; (ii) for an EPUB whose TOC has no nested sections the
orders are exactly `1..k`; (iii) a nested section resets the EPUB order
counter, so orders can repeat — the claim does not hold as stated. -/
theorem chapter_orders_strict_mono :
    (∀ (doc : PdfDoc) (minLen : Nat),
        ((get_chapters_from_toc doc minLen).filterMap Chapter.order).Pairwise (· < ·)) ∧
      (∀ (docs : List (List Char × List Char))
          (fragF : List Char → List Char → Option (List Char) → List Char)
          (items : List TocItem),
        (∀ it ∈ items, isLinkT it = true) →
        (extract_chapters_from_epub_toc docs fragF items).filterMap Chapter.order =
          List.range' 1 (extract_chapters_from_epub_toc docs fragF items).length) ∧
      (extract_chapters_from_epub_toc epubDocsCex (fun _ _ _ => []) epubTocNestedCex).filterMap
          Chapter.order = [1, 1] := by
  refine ⟨?_, ?_, ?_⟩
  case refine_3 =>
    unfold extract_chapters_from_epub_toc epubTocNestedCex
    rw [goTocAux_link_step epubDocsCex (fun _ _ _ => []) "Alpha".toList "a.html".toList
      [TocItem.sect "Part One".toList [TocItem.link "Beta".toList "b.html".toList]] 0
      ("a.html".toList, "Alpha body text".toList) (by decide) (by decide) (by decide) (by decide)]
    rw [goTocAux_sect_step]
    rw [goTocAux_link_step epubDocsCex (fun _ _ _ => []) "Beta".toList "b.html".toList [] 0
      ("b.html".toList, "Beta body text".toList) (by decide) (by decide) (by decide) (by decide)]
    simp only [goTocAux_nil]
    decide
  · intro doc minLen
    exact (filterMap_enumFrom_orders _
      (by
        intro i m c h
        dsimp only at h
        by_cases hkeep : minLen <
          (pyStrip (extract_chapter_text doc (m.2 - 1)
            (match (chapterMarkersAux doc.toc []).get? (i + 1) with
             | some m2 => m2.2 - 1
             | none => doc.pages.length))).length
        · rw [if_pos hkeep] at h
          cases h
          rfl
        · rw [if_neg hkeep] at h
          exact Option.noConfusion h)
      (chapterMarkersAux doc.toc []) 0).1
  · intro docs fragF items hflat
    exact goTocAux_flat docs fragF items 0 hflat

/-- Witness instance for `chapter_orders_strict_mono` (a flat two-link EPUB
TOC yields orders `[1, 2]`). -/
theorem chapter_orders_strict_mono_witness :
    (extract_chapters_from_epub_toc epubDocsCex (fun _ _ _ => [])
        [TocItem.link "Alpha".toList "a.html".toList,
         TocItem.link "Beta".toList "b.html".toList]).filterMap Chapter.order =
      List.range' 1 (extract_chapters_from_epub_toc epubDocsCex (fun _ _ _ => [])
        [TocItem.link "Alpha".toList "a.html".toList,
         TocItem.link "Beta".toList "b.html".toList]).length :=
  chapter_orders_strict_mono.2.1 epubDocsCex (fun _ _ _ => [])
    [TocItem.link "Alpha".toList "a.html".toList,
     TocItem.link "Beta".toList "b.html".toList] (by
      intro it hit
      rcases List.mem_cons.mp hit with h | h
      · subst h; rfl
      · rcases List.mem_cons.mp h with h1 | h1
        · subst h1; rfl
        · cases h1)

/-- The concrete PDF used in the counterexample: two level-1 TOC entries;
the first chapter's single page holds one character, the second's page
holds 60, so with the default minimum of 50 the first chapter is
discarded. -/
def pdfDocCex : PdfDoc :=
  ⟨[(1, "A".toList, 1), (1, "B".toList, 2)],
   ["x".toList, (List.replicate 60 'b')]⟩

/-- C7 counterexample: after the too-short first chapter is discarded the
extracted sequence has orders `[2]` — it does not start at 1, refuting the
claim that orders start at 1 regardless of how many candidates were
discarded. -/
theorem chapter_orders_cex :
    (get_chapters_from_toc pdfDocCex 50).filterMap Chapter.order = [2] := by
  decide

/-!
### C6: zero extracted chapters
-/

/-- C6 (amended): only the EPUB branch treats zero extracted chapters as
fatal (exit code 1 before any synthesis); a PDF from which zero chapters
were extracted completes with exit code 0 and zero synthesis calls, as if
it had succeeded; a text file always yields exactly one chapter, so the
zero-chapter case cannot arise there. -/
theorem zero_chapters_exit_codes :
    convertRun SourceFormat.epubFmt [] = (1, 0) ∧
      convertRun SourceFormat.pdfFmt [] = (0, 0) ∧
      ∀ text : List Char, (txtChapters text).length = 1 := by
  refine ⟨rfl, rfl, fun text => rfl⟩

/-- C6 counterexample: a PDF input with zero extracted chapters exits with
code 0 (and produces nothing), not with the claimed fatal exit code 1. -/
theorem zero_chapters_pdf_exit_cex :
    (convertRun SourceFormat.pdfFmt []).1 = 0 ∧ (convertRun SourceFormat.pdfFmt []).1 ≠ 1 := by
  decide
